import Mathlib

/-!
Verification of the streaming transcription stabilization engine of
`whisper_streaming_web` (files `src/whisper_streaming/online_asr.py` and
`src/translation/translation.py`), shallowly embedded in Lean 4.

Timestamps (Python floats) are modelled as rationals; word texts as `String`;
Python lists as Lean lists.  Each definition mirrors one Python function.
-/

namespace WhisperStreamingSpec

/-- Element of a hypothesis list: the Python tuple `(a, b, t)` =
`(start_s, end_s, text)` used throughout `online_asr.py`. -/
structure TW where
  a : ℚ
  b : ℚ
  t : String
deriving DecidableEq, Repr

/-! ## HypothesisBuffer (`online_asr.py` lines 13-85) -/

/-- State of `HypothesisBuffer`: fields `commited_in_buffer`, `buffer`,
`new`, `last_commited_time`, `last_commited_word` of the Python class. -/
structure HBState where
  commited : List TW
  buffer : List TW
  new : List TW
  lct : ℚ
  lcw : Option String
deriving DecidableEq, Repr

/-- Constructor `HypothesisBuffer.__init__`: empty lists, `last_commited_time = 0`. -/
def HBState.init : HBState := ⟨[], [], [], 0, none⟩

/-- The string `" ".join(texts)` used by the n-gram comparison in
`HypothesisBuffer.insert`. -/
def sjoin (l : List String) : String := String.intercalate " " l

/-- The n-gram comparison of `HypothesisBuffer.insert`:
`c = " ".join([commited_in_buffer[-j][2] for j in range(1, i+1)][::-1])`
(the last `i` committed texts, in order) against
`tail = " ".join(new[j-1][2] for j in range(1, i+1))` (first `i` new texts). -/
def ngramEq (commited newL : List TW) (i : ℕ) : Bool :=
  sjoin ((commited.drop (commited.length - i)).map (fun w => w.t))
    == sjoin (((newL.take i)).map (fun w => w.t))

/-- The `for i in range(1, min(min(cn, nn), 5) + 1)` loop of
`HypothesisBuffer.insert`: it pops `i` words from the front of `new` for the
first `i` whose n-grams compare equal, then breaks. -/
def ngramDrop (commited newL : List TW) : List TW :=
  match (List.range' 1 (min (min commited.length newL.length) 5)).find?
      (fun i => ngramEq commited newL i) with
  | some i => newL.drop i
  | none => newL

/-- The first two lines of `HypothesisBuffer.insert`: offset every word by
`offset` and keep those with `a > last_commited_time - 0.1`. -/
def insertShiftFilter (st : HBState) (h : List TW) (offset : ℚ) : List TW :=
  (h.map (fun w => TW.mk (w.a + offset) (w.b + offset) w.t)).filter
    (fun w => decide (st.lct - 1/10 < w.a))

/-- Method `HypothesisBuffer.insert(new, offset)` (lines 25-54): shift, filter,
and - when `new` is non-empty, `|new[0].a - last_commited_time| < 1` and
`commited_in_buffer` is non-empty - apply the n-gram drop. -/
def HBState.insert (st : HBState) (h : List TW) (offset : ℚ) : HBState :=
  let newL := insertShiftFilter st h offset
  let newL2 :=
    match newL with
    | [] => newL
    | w :: _ =>
      if |w.a - st.lct| < 1 then
        if st.commited = [] then newL else ngramDrop st.commited newL
      else newL
  { st with new := newL2 }

/-- The `while self.new:` loop of `HypothesisBuffer.flush`: pop matching head
pairs from `new` and `buffer`; returns `(commit, remaining new, remaining
buffer)`. -/
def flushLoop : List TW → List TW → List TW × List TW × List TW
  | [], buf => ([], [], buf)
  | n :: ns, [] => ([], n :: ns, [])
  | n :: ns, bw :: bs =>
    if n.t = bw.t then
      let r := flushLoop ns bs
      (n :: r.1, r.2.1, r.2.2)
    else ([], n :: ns, bw :: bs)

/-- Method `HypothesisBuffer.flush()` (lines 56-77): returns the commit and the
successor state (`buffer := remaining new`, `new := []`,
`commited_in_buffer extended`, `last_commited_time/word` from the last
committed word). -/
def HBState.flush (st : HBState) : List TW × HBState :=
  let r := flushLoop st.new st.buffer
  let commit := r.1
  ⟨commit,
    { commited := st.commited ++ commit
      buffer := r.2.1
      new := []
      lct := match commit.getLast? with | some w => w.b | none => st.lct
      lcw := match commit.getLast? with | some w => some w.t | none => st.lcw }⟩

/-- Method `HypothesisBuffer.pop_commited(time)` (lines 79-82). -/
def HBState.pop_commited (st : HBState) (time : ℚ) : HBState :=
  { st with commited := st.commited.dropWhile (fun w => decide (w.b ≤ time)) }

/-- Method `HypothesisBuffer.complete()` (lines 84-85): returns `buffer`. -/
def HBState.complete (st : HBState) : List TW := st.buffer

/-- Longest common prefix by text equality of two word lists - stated from
the specification's words ("emits the longest common prefix by text equality
... stop on first mismatch or when either side empties"), for comparison
with the code's `flushLoop`. -/
def specLCP : List TW → List TW → List TW
  | n :: ns, bw :: bs => if n.t = bw.t then n :: specLCP ns bs else []
  | _, _ => []

/-! ## Operation traces over a HypothesisBuffer -/

/-- One operation on a `HypothesisBuffer`. -/
inductive HBOp where
  | ins (h : List TW) (offset : ℚ)
  | fl
deriving Repr

/-- Run a list of operations from a state, collecting every word ever
returned by `flush` in order. -/
def runOps : HBState → List HBOp → HBState × List TW
  | st, [] => (st, [])
  | st, HBOp.ins h o :: rest => runOps (st.insert h o) rest
  | st, HBOp.fl :: rest =>
    let p := st.flush
    let r := runOps p.2 rest
    (r.1, p.1 ++ r.2)

/-- Chronologically ordered hypothesis: every word has `start ≤ end` and
ends no later than the next word starts (the shape of real ASR output). -/
def Chron (l : List TW) : Prop :=
  (∀ w ∈ l, w.a ≤ w.b) ∧ List.Pairwise (fun u v : TW => u.b ≤ v.a) l

instance (l : List TW) : Decidable (Chron l) := by
  unfold Chron
  infer_instance

/-- Predicate `Chron` for the hypothesis of an `ins` operation; trivial for `fl`. -/
def OpChron : HBOp → Prop
  | HBOp.ins h _ => Chron h
  | HBOp.fl => True

instance : (op : HBOp) → Decidable (OpChron op)
  | HBOp.ins h _ => inferInstanceAs (Decidable (Chron h))
  | HBOp.fl => inferInstanceAs (Decidable True)

/-- Invariant tying a buffer state to the `end_s` values (`ends`) of all
words committed so far: pending-insert words are chronological and start
after `last_commited_time - 0.1`, the committed ends chain with slack 0.1,
and the last committed end equals `last_commited_time`. -/
def HBInv (st : HBState) (ends : List ℚ) : Prop :=
  (∀ w ∈ st.new, st.lct - 1/10 < w.a ∧ w.a ≤ w.b) ∧
  List.Pairwise (fun u v : TW => u.b ≤ v.a) st.new ∧
  List.Chain' (fun x y : ℚ => x - 1/10 < y) ends ∧
  (∀ x, ends.getLast? = some x → x = st.lct)

/-! ## Sentence segmentation (`online_asr.py` lines 109-176) -/

/-- A timed segment `(beg, end, text)` where the timestamps may be `None`. -/
structure Seg where
  a : Option ℚ
  b : Option ℚ
  t : String
deriving DecidableEq, Repr

/-- Function `concatenate_tsw(tsw)` with the default separator `""` and offset `0`
(lines 109-130): `(None, None, "")` on the empty list, otherwise
`(first.a, last.b, concatenation of texts)`. -/
def concatenate_tsw (tsw : List TW) : Seg :=
  let t := String.join (tsw.map (fun w => w.t))
  match tsw.head?, tsw.getLast? with
  | some hd, some lt => ⟨some hd.a, some lt.b, t⟩
  | _, _ => ⟨none, none, t⟩

/-- Test `re.search(r"[.?!]", t)` as a Boolean on the text's characters. -/
def hasPunct (cs : List Char) : Bool :=
  cs.any (fun c => c == '.' || c == '?' || c == '!')

/-- Test `re.search(r"\d\.", t)`: some digit immediately followed by a dot. -/
def hasDigitDot : List Char → Bool
  | c :: d :: rest => (c.isDigit && d == '.') || hasDigitDot (d :: rest)
  | _ => false

/-- Whether `pat` occurs as a contiguous subsequence of the character list
(`re.search` with a literal pattern). -/
def containsSeq (pat : List Char) : List Char → Bool
  | [] => pat.isEmpty
  | c :: rest => pat.isPrefixOf (c :: rest) || containsSeq pat rest

/-- The per-word body of the loop in `words_to_sentences` (lines 142-164):
returns the (possibly modified) text and the `break_sentence` flag.  Note:
in the ellipsis branch the source executes `w[2].replace("...", r"…")`
and discards the returned string, so the text is left unchanged there. -/
def sentenceFlags (t : String) : String × Bool :=
  let cs := t.data
  if hasPunct cs then
    if ¬ cs.contains '.' then (t, true)
    else
      if cs.headD ' ' == '.' then (String.mk (cs.drop 1), false)
      else if containsSeq ("...".data) cs then (t, false)
      else if hasDigitDot cs then (t, false)
      else (t, true)
  else (t, false)

/-- A Python runtime error reachable in the embedded code. -/
inductive PyErr where
  | unboundLocal
deriving DecidableEq, Repr

/-- Function `words_to_sentences(words)` (lines 133-176).  The fold state carries
`(all_sentences, sentence, last value of break_sentence)`; the flag is
`none` while the loop has not run, so that the final `if break_sentence:`
read raises an unbound-local error on empty input exactly as the source
does. -/
def words_to_sentences (words : List TW) : Except PyErr (List Seg × List TW) :=
  let r := words.foldl
    (fun (acc : List Seg × List TW × Option Bool) w =>
      let p := sentenceFlags w.t
      let w' : TW := ⟨w.a, w.b, p.1⟩
      let sentence' := acc.2.1 ++ [w']
      if p.2 then (acc.1 ++ [concatenate_tsw sentence'], [], some p.2)
      else (acc.1, sentence', some p.2))
    ([], [], none)
  match r.2.2 with
  | none => Except.error PyErr.unboundLocal
  | some brk => Except.ok (r.1, if brk then [] else r.2.1)

/-! ## OnlineASRProcessor (`online_asr.py` lines 193-520), the parts driving
the claims: `chunk_at`, `chunk_completed_segment`, the `segment`-mode branch
of `get_completed_words`, and the prompt update of `process_iter`. -/

/-- Python `int()` applied to a rational: truncation toward zero. -/
def pyInt (q : ℚ) : ℤ := if 0 ≤ q then ⌊q⌋ else -⌊-q⌋

/-- Length of the Python slice `xs[i:]` of a list of length `len`
(negative `i` counts from the end). -/
def pySliceFromLen (len : ℕ) (i : ℤ) : ℕ :=
  if 0 ≤ i then len - min i.toNat len else min (-i).toNat len

/-- State of `OnlineASRProcessor` relevant to the claims: the audio buffer is
tracked by its sample count. -/
structure ProcState where
  audioLen : ℕ
  bufferTimeOffset : ℚ
  hb : HBState
  cnf : List TW
  finalT : List TW
  trimSec : ℚ
deriving DecidableEq, Repr

/-- Constant `SAMPLING_RATE = 16000`. -/
def SAMPLING_RATE : ℕ := 16000

/-- Method `OnlineASRProcessor.chunk_at(time)` (lines 472-487): pop committed words
ending before `time`, drop `int((time - buffer_time_offset) * 16000)` samples
from the front of the audio buffer, and set `buffer_time_offset := time`. -/
def chunk_at (st : ProcState) (time : ℚ) : ProcState :=
  { st with
    hb := st.hb.pop_commited time
    audioLen := pySliceFromLen st.audioLen
      (pyInt ((time - st.bufferTimeOffset) * (SAMPLING_RATE : ℚ)))
    bufferTimeOffset := time }

/-- The `while len(ends) > 2 and e > t:` loop of `chunk_completed_segment`,
acting on the reversed `ends` list (head = `ends[-1]`): while more than two
entries remain and the second entry exceeds `t`, pop the head. -/
def chunkLoop (t : ℚ) : List ℚ → List ℚ
  | x :: y :: z :: rest => if t < y then chunkLoop t (y :: z :: rest) else x :: y :: z :: rest
  | l => l

/-- Method `OnlineASRProcessor.chunk_completed_segment(ts_words)` (lines 441-470):
returns the committed words together with the successor processor state. -/
def chunk_completed_segment (st : ProcState) (tsWords : List TW) : List TW × ProcState :=
  if tsWords.length ≤ 1 then ([], st)
  else
    let ends := tsWords.map (fun w => w.b)
    let t := (ends.getLastD 0)
    let r := chunkLoop t ends.reverse
    let e := r.getD 1 0
    if e ≤ t then
      let st' := chunk_at st e
      let n := r.length - 1
      (tsWords.take n,
        { st' with
          finalT := st'.finalT ++ tsWords.take n
          cnf := tsWords.drop n })
    else ([], st)

/-- The `segment`-mode tail of `OnlineASRProcessor.get_completed_words`
(lines 425-439): return `[]` while the audio buffer is shorter than
`buffer_trimming_sec`, else chunk the completed segment of
`commited_not_final`. -/
def get_completed_words_segment (st : ProcState) : List TW × ProcState :=
  if (st.audioLen : ℚ) / (SAMPLING_RATE : ℚ) < st.trimSec then ([], st)
  else chunk_completed_segment st st.cnf

/-! ## The prompt of `OnlineASRProcessor` -/

/-- The Python slice `s[-n:]`: the last `min n (length s)` characters. -/
def pyLast (n : ℕ) (s : String) : String :=
  String.mk (s.data.drop (s.data.length - n))

/-- The prompt update of `process_iter` (lines 365-367):
`self.promt = (self.promt + completed[2])[-200:]`. -/
def promtStep (p completedText : String) : String :=
  pyLast 200 (p ++ completedText)

/-- Prompts reachable in an `OnlineASRProcessor`: `init` sets `promt = ""`
(line 270) and each `process_iter` either leaves the prompt unchanged or
applies `promtStep` with the text of the newly completed words. -/
inductive PromptReachable : String → Prop where
  | init : PromptReachable ""
  | step {p : String} (hp : PromptReachable p) (completedText : String) :
      PromptReachable (promtStep p completedText)

/-! ## Translation pipeline (`translation.py`) -/

/-- The sentinel string returned on a failed MT call. -/
def TRANSLATION_ERROR : String := "[ Translation Error ]"

/-- Method `OnlineTranslator._translate_tokenized_text` (lines 271-288): the
external calls `model.generate` and `tokenizer.batch_decode(...)[0]` are
modelled as `Except`-valued collaborators; the `try/except` returns the
sentinel on any exception. -/
def translate_tokenized_text (generate : Except String (List ℕ))
    (batch_decode : List ℕ → Except String String) : String :=
  match generate.bind batch_decode with
  | Except.ok s => s
  | Except.error _ => TRANSLATION_ERROR

/-- Method `OnlineTranslator._translate_with_deepl` (lines 252-269): the hosted
`model.translate_text` call is an `Except`-valued collaborator; the
`try/except` returns the sentinel on any exception. -/
def translate_with_deepl (call : Except String String) : String :=
  match call with
  | Except.ok s => s
  | Except.error _ => TRANSLATION_ERROR

/-- A queued translation item: the text of the segment and `is_complete`. -/
structure QItem where
  text : String
  complete : Bool
deriving DecidableEq, Repr

/-- The dispatch decision of `TranslationPipeline._translation_thread`
(lines 400-440) run over a fixed queue with no concurrent producer: each
item is dequeued, `queue_size` is the number of items still waiting, and
the item is dispatched iff `is_complete or queue_size == 0`; otherwise it
is dropped.  Returns the dispatched items in order. -/
def workerRun : List QItem → List QItem
  | [] => []
  | it :: rest =>
    let qsize := rest.length
    if it.complete || qsize == 0 then it :: workerRun rest
    else workerRun rest

/-- The fan-out of a dispatched item: `for T in self.translators:` sends the
prepared text to every target-language translator (line 427-428). -/
def dispatchEvents (translators : List String) (queue : List QItem) :
    List (String × QItem) :=
  (workerRun queue).flatMap (fun it => translators.map (fun T => (T, it)))

/-! ## Concrete inputs used by the claims -/

/-- First hypothesis of the LocalAgreement scenario. -/
def exHyp1 : List TW := [⟨0, 1/2, "hello"⟩, ⟨1/2, 1, "world"⟩]

/-- Second hypothesis of the LocalAgreement scenario. -/
def exHyp2 : List TW := [⟨0, 1/2, "hello"⟩, ⟨1/2, 1, "world"⟩, ⟨1, 3/2, "today"⟩]

/-- Buffer state whose committed words end with two equal texts "a","a". -/
def c2st : HBState := ⟨[⟨0, 1, "a"⟩, ⟨1, 2, "a"⟩], [], [], 2, some "a"⟩

/-- New hypothesis starting with "a","a" near the last committed time. -/
def c2hyp : List TW := [⟨39/20, 5/2, "a"⟩, ⟨5/2, 3, "a"⟩, ⟨3, 7/2, "b"⟩]

/-- The shifted-and-filtered incoming list of the `c2st`/`c2hyp` insert. -/
def c2newL : List TW := insertShiftFilter c2st c2hyp 0

/-- Processor state of the segment-mode trim scenario: a 12-second audio
buffer, trimming threshold 10 s, and four committed-not-final words. -/
def c3st : ProcState :=
  ⟨12 * 16000, 0, HBState.init,
    [⟨0, 1, "a"⟩, ⟨1, 2, "b"⟩, ⟨19/2, 10, "c"⟩, ⟨10, 21/2, "d"⟩], [], 10⟩

/-- A processor state below the trimming threshold. -/
def c3stSmall : ProcState := ⟨16000, 0, HBState.init, [⟨0, 1, "a"⟩], [], 10⟩

/-- A 300-character completed text. -/
def c6long : String := String.mk (List.replicate 300 'x')

/-! ## Helper lemmas -/

lemma flushLoop_eq (n b : List TW) :
    flushLoop n b = (specLCP n b, n.drop (specLCP n b).length, b.drop (specLCP n b).length) := by
  induction n generalizing b with
  | nil => cases b <;> simp [flushLoop, specLCP]
  | cons w ns ih =>
    cases b with
    | nil => simp [flushLoop, specLCP]
    | cons bw bs =>
      by_cases hteq : w.t = bw.t
      · simp [flushLoop, specLCP, hteq, ih bs]
      · simp [flushLoop, specLCP, hteq]

lemma flushLoop_nil_right (l : List TW) : flushLoop l [] = ([], l, []) := by
  cases l <;> rfl

lemma flushLoop_self (l : List TW) : flushLoop l l = (l, [], []) := by
  induction l with
  | nil => rfl
  | cons w ws ih => simp [flushLoop, ih]

lemma insert_commited_nil (st : HBState) (h : List TW) (o : ℚ) (hc : st.commited = []) :
    st.insert h o = { st with new := insertShiftFilter st h o } := by
  unfold HBState.insert
  cases hnl : insertShiftFilter st h o with
  | nil => simp [hnl]
  | cons w ws =>
    by_cases h1 : |w.a - st.lct| < 1 <;> simp [hnl, h1, hc]

lemma insert_buffer (st : HBState) (h : List TW) (o : ℚ) :
    (st.insert h o).buffer = st.buffer := by
  unfold HBState.insert
  cases hnl : insertShiftFilter st h o with
  | nil => rfl
  | cons w ws =>
    by_cases h1 : |w.a - st.lct| < 1 <;> by_cases hc : st.commited = [] <;>
      simp [hnl, h1, hc]

lemma flush_commit_of_buffer_nil (st : HBState) (hb : st.buffer = []) :
    st.flush.1 = [] := by
  simp [HBState.flush, hb, flushLoop_nil_right]

lemma insertShiftFilter_lct_congr (st st' : HBState) (h : List TW) (o : ℚ)
    (hl : st.lct = st'.lct) : insertShiftFilter st h o = insertShiftFilter st' h o := by
  unfold insertShiftFilter
  rw [hl]

lemma find?_range'_some (p : ℕ → Bool) (a m n : ℕ) (h1 : a ≤ n) (h2 : n < a + m)
    (hp : p n = true) (hmin : ∀ k, a ≤ k → k < n → p k = false) :
    (List.range' a m).find? p = some n := by
  induction m generalizing a with
  | zero => omega
  | succ m ih =>
    rw [List.range'_succ]
    by_cases hna : n = a
    · subst hna
      rw [List.find?_cons_of_pos _ hp]
    · have hfa : p a = false := hmin a le_rfl (by omega)
      rw [List.find?_cons_of_neg _ (by simp [hfa])]
      exact ih (a + 1) (by omega) (by omega) (fun k hk1 hk2 => hmin k (by omega) hk2)

lemma find?_range'_none (p : ℕ → Bool) (a m : ℕ)
    (hall : ∀ k, a ≤ k → k < a + m → p k = false) :
    (List.range' a m).find? p = none := by
  rw [List.find?_eq_none]
  intro x hx
  rw [List.mem_range'_1] at hx
  simp [hall x hx.1 hx.2]

lemma insert_ngram_cond (st : HBState) (h : List TW) (o : ℚ) (w : TW) (ws : List TW)
    (hnl : insertShiftFilter st h o = w :: ws)
    (hc : st.commited ≠ [])
    (hnear : |w.a - st.lct| < 1) :
    (st.insert h o).new = ngramDrop st.commited (w :: ws) := by
  unfold HBState.insert
  simp [hnl, hnear, hc]

lemma flushLoop_append_new (n b : List TW) :
    (flushLoop n b).1 ++ (flushLoop n b).2.1 = n := by
  induction n generalizing b with
  | nil => cases b <;> rfl
  | cons w ns ih =>
    cases b with
    | nil => rfl
    | cons bw bs =>
      by_cases hteq : w.t = bw.t <;> simp [flushLoop, hteq, ih bs]

lemma flushLoop_commit_sublist (n b : List TW) : (flushLoop n b).1.Sublist n := by
  conv_rhs => rw [← flushLoop_append_new n b]
  exact List.sublist_append_left _ _

lemma ngramDrop_sublist (c n : List TW) : (ngramDrop c n).Sublist n := by
  unfold ngramDrop
  rcases hf : (List.range' 1 (min (min c.length n.length) 5)).find?
      (fun i => ngramEq c n i) with - | i
  · simp [hf]
  · simp only [hf]
    exact List.drop_sublist i n

lemma insert_fields (st : HBState) (h : List TW) (o : ℚ) :
    (st.insert h o).commited = st.commited ∧ (st.insert h o).buffer = st.buffer ∧
    (st.insert h o).lct = st.lct := by
  unfold HBState.insert
  cases hnl : insertShiftFilter st h o with
  | nil => exact ⟨rfl, rfl, rfl⟩
  | cons w ws =>
    by_cases h1 : |w.a - st.lct| < 1 <;> by_cases hc : st.commited = [] <;>
      simp [h1, hc]

lemma insert_new_cases (st : HBState) (h : List TW) (o : ℚ) :
    (st.insert h o).new = insertShiftFilter st h o ∨
    (st.insert h o).new = ngramDrop st.commited (insertShiftFilter st h o) := by
  unfold HBState.insert
  cases hnl : insertShiftFilter st h o with
  | nil => left; simp [hnl]
  | cons w ws =>
    by_cases h1 : |w.a - st.lct| < 1
    · by_cases hc : st.commited = []
      · left; simp [hnl, h1, hc]
      · right; simp [hnl, h1, hc]
    · left; simp [hnl, h1]

lemma insert_new_sublist (st : HBState) (h : List TW) (o : ℚ) :
    (st.insert h o).new.Sublist (insertShiftFilter st h o) := by
  rcases insert_new_cases st h o with hcase | hcase <;> rw [hcase]
  exact ngramDrop_sublist _ _

lemma shiftFilter_props (st : HBState) (h : List TW) (o : ℚ) (hch : Chron h) :
    (∀ w ∈ insertShiftFilter st h o, st.lct - 1/10 < w.a ∧ w.a ≤ w.b) ∧
    List.Pairwise (fun u v : TW => u.b ≤ v.a) (insertShiftFilter st h o) := by
  constructor
  · intro w hw
    unfold insertShiftFilter at hw
    rw [List.mem_filter] at hw
    obtain ⟨hmem, hfil⟩ := hw
    rw [List.mem_map] at hmem
    obtain ⟨u, hu, rfl⟩ := hmem
    exact ⟨by simpa using hfil, add_le_add_right (hch.1 u hu) o⟩
  · unfold insertShiftFilter
    apply List.Pairwise.filter
    apply List.Pairwise.map _ _ hch.2
    intro u v huv
    exact add_le_add_right huv o

lemma HBInv_insert (st : HBState) (ends : List ℚ) (h : List TW) (o : ℚ)
    (hI : HBInv st ends) (hch : Chron h) : HBInv (st.insert h o) ends := by
  obtain ⟨hP, hPW⟩ := shiftFilter_props st h o hch
  have hsub := insert_new_sublist st h o
  obtain ⟨hcm, hbf, hlct⟩ := insert_fields st h o
  refine ⟨?_, ?_, hI.2.2.1, ?_⟩
  · intro w hw
    rw [hlct]
    exact hP w (hsub.subset hw)
  · exact List.Pairwise.sublist hsub hPW
  · intro x hx
    rw [hlct]
    exact hI.2.2.2 x hx

lemma HBInv_flush (st : HBState) (ends : List ℚ) (hI : HBInv st ends) :
    HBInv (st.flush).2 (ends ++ (st.flush).1.map (fun w => w.b)) := by
  obtain ⟨hnew, hpw, hch, hlast⟩ := hI
  have hcsub : (st.flush).1.Sublist st.new := flushLoop_commit_sublist st.new st.buffer
  have hcP : ∀ w ∈ (st.flush).1, st.lct - 1/10 < w.a ∧ w.a ≤ w.b :=
    fun w hw => hnew w (hcsub.subset hw)
  have hcpw : List.Pairwise (fun u v : TW => u.b ≤ v.a) (st.flush).1 :=
    List.Pairwise.sublist hcsub hpw
  have hfnew : (st.flush).2.new = [] := rfl
  have hflct : (st.flush).2.lct
      = match (st.flush).1.getLast? with | some w => w.b | none => st.lct := rfl
  refine ⟨?_, ?_, ?_, ?_⟩
  · intro w hw
    rw [hfnew] at hw
    cases hw
  · rw [hfnew]
    exact List.Pairwise.nil
  · rw [List.chain'_append]
    refine ⟨hch, ?_, ?_⟩
    · rw [List.chain'_map]
      apply List.Pairwise.chain'
      apply List.Pairwise.imp_of_mem ?_ hcpw
      intro u v hu hv huv
      have h2 : v.a ≤ v.b := (hcP v hv).2
      linarith
    · intro x hx y hy
      rw [Option.mem_def] at hx hy
      have hxl : x = st.lct := hlast x hx
      rw [List.head?_map] at hy
      rcases hhd : (st.flush).1.head? with - | w
      · rw [hhd] at hy
        cases hy
      · rw [hhd] at hy
        have hwmem : w ∈ (st.flush).1 := List.mem_of_mem_head? (by rw [hhd]; rfl)
        obtain ⟨hwa, hwab⟩ := hcP w hwmem
        have : y = w.b := by
          simpa using hy.symm
        rw [hxl, this]
        linarith
  · intro x hx
    rcases hcc : (st.flush).1 with - | ⟨w, ws⟩
    · rw [hcc] at hx
      simp only [List.map_nil, List.append_nil] at hx
      rw [hflct, hcc]
      exact hlast x hx
    · have hne : ((st.flush).1.map (fun w => w.b)) ≠ [] := by
        rw [hcc]
        simp
      rw [List.getLast?_append_of_ne_nil _ hne, List.getLast?_map] at hx
      rw [hflct]
      rcases hgl : (st.flush).1.getLast? with - | u
      · rw [hcc] at hgl
        simp at hgl
      · rw [hgl] at hx
        simpa using hx.symm

lemma runOps_chain (ops : List HBOp) : ∀ (st : HBState) (ends : List ℚ),
    HBInv st ends → (∀ op ∈ ops, OpChron op) →
    List.Chain' (fun x y : ℚ => x - 1/10 < y)
      (ends ++ ((runOps st ops).2.map (fun w => w.b))) := by
  induction ops with
  | nil =>
    intro st ends hI _
    simpa [runOps] using hI.2.2.1
  | cons op rest ih =>
    intro st ends hI hops
    cases op with
    | ins h o =>
      have hch : Chron h := hops (HBOp.ins h o) (List.mem_cons_self _ _)
      have := ih (st.insert h o) ends (HBInv_insert st ends h o hI hch)
        (fun op hop => hops op (List.mem_cons_of_mem _ hop))
      simpa [runOps] using this
    | fl =>
      have := ih (st.flush).2 (ends ++ (st.flush).1.map (fun w => w.b))
        (HBInv_flush st ends hI)
        (fun op hop => hops op (List.mem_cons_of_mem _ hop))
      simpa [runOps, List.append_assoc] using this

lemma pyLast_length (n : ℕ) (s : String) : (pyLast n s).length ≤ n := by
  unfold pyLast
  rw [show (String.mk (s.data.drop (s.data.length - n))).length
      = (s.data.drop (s.data.length - n)).length from rfl, List.length_drop]
  omega

/-! ## Claim theorems -/

section RatCompute

set_option allowUnsafeReducibility true
attribute [local semireducible] Rat.add Rat.sub Rat.mul Rat.inv

/-- Claim C1: `HypothesisBuffer.flush` returns exactly the longest common
prefix by word-text equality of the stored `buffer` (pending) and the newly
inserted `new` (incoming) lists, sets the pending list to what is left of
the incoming list, clears the incoming list, and appends the returned words
to `commited_in_buffer`; and in the concrete two-insert scenario the second
flush returns "hello" and "world" while `complete()` returns "today". -/
theorem c1_flush_lcp :
    (∀ st : HBState,
      (st.flush).1 = specLCP st.new st.buffer ∧
      (st.flush).2.buffer = st.new.drop (specLCP st.new st.buffer).length ∧
      (st.flush).2.new = [] ∧
      (st.flush).2.commited = st.commited ++ specLCP st.new st.buffer) ∧
    (((HBState.init.insert exHyp1 0).flush.2.insert exHyp2 0).flush.1
        = [⟨0, 1/2, "hello"⟩, ⟨1/2, 1, "world"⟩] ∧
      ((HBState.init.insert exHyp1 0).flush.2.insert exHyp2 0).flush.2.complete
        = [⟨1, 3/2, "today"⟩]) := by
  constructor
  · intro st
    simp [HBState.flush, flushLoop_eq]
  · exact ⟨by decide, by decide⟩

/-- Claim C10: `words_to_sentences` applied to the empty word list does not
return the pair `([], [])`: the final tail decision reads `break_sentence`,
which is never assigned when the loop body never runs, so the call ends in
an unbound-local error instead of returning normally. -/
theorem c10_words_to_sentences_empty_unbound :
    words_to_sentences [] = Except.error PyErr.unboundLocal ∧
    ∀ r, words_to_sentences ([] : List TW) ≠ Except.ok r := by
  refine ⟨rfl, fun r hr => ?_⟩
  rw [show words_to_sentences ([] : List TW) = Except.error PyErr.unboundLocal from rfl] at hr
  exact Except.noConfusion hr

/-- Claim C5 (code bug): in `words_to_sentences` a word starting with `.`
is stripped and does not close a sentence, and `"3."` does not close a
sentence, as claimed; but a word containing `"..."` is NOT collapsed to an
ellipsis codepoint in the output - the source discards the result of
`str.replace` - so the text `"wait..."` passes through unchanged. -/
theorem c5_ellipsis_not_collapsed :
    words_to_sentences [⟨0, 1, "wait..."⟩]
        = Except.ok ([], [⟨0, 1, "wait..."⟩]) ∧
    sentenceFlags "wait..." = ("wait...", false) ∧
    sentenceFlags ".hello" = ("hello", false) ∧
    sentenceFlags "3." = ("3.", false) := by
  refine ⟨rfl, by decide, by decide, by decide⟩

/-- Claim C7: an item dequeued by the translation worker is dispatched to
every target-language translator iff `is_complete` is true or the queue is
empty after the dequeue (i.e. the item is last); otherwise it is dropped.
With `(seg1,false), (seg2,false), (seg3,true)` queued, only `seg3` reaches
the translators, and it reaches each of them. -/
theorem c7_worker_drop_stale :
    (∀ (q : List QItem) (x : QItem),
      workerRun (q ++ [x]) = q.filter (fun it => it.complete) ++ [x]) ∧
    workerRun [] = [] ∧
    dispatchEvents ["en", "de"] [⟨"seg1", false⟩, ⟨"seg2", false⟩, ⟨"seg3", true⟩]
      = [("en", ⟨"seg3", true⟩), ("de", ⟨"seg3", true⟩)] := by
  refine ⟨fun q x => ?_, rfl, by decide⟩
  induction q with
  | nil => simp [workerRun]
  | cons a q ih =>
    by_cases hc : a.complete <;>
      simp [workerRun, hc, ih, List.length_append]

/-- Claim C8: if the underlying MT call fails (the `model.generate` /
`batch_decode` pair for m2m100, or the hosted call for deepl), the
translator returns the literal string `"[ Translation Error ]"` instead of
propagating the exception; on success it returns the model's output. -/
theorem c8_translation_error_sentinel :
    (∀ (e : String) (dec : List ℕ → Except String String),
      translate_tokenized_text (Except.error e) dec = TRANSLATION_ERROR) ∧
    (∀ (tok : List ℕ) (dec : List ℕ → Except String String) (e : String),
      dec tok = Except.error e →
      translate_tokenized_text (Except.ok tok) dec = TRANSLATION_ERROR) ∧
    (∀ (tok : List ℕ) (dec : List ℕ → Except String String) (s : String),
      dec tok = Except.ok s →
      translate_tokenized_text (Except.ok tok) dec = s) ∧
    (∀ e : String, translate_with_deepl (Except.error e) = TRANSLATION_ERROR) ∧
    (∀ s : String, translate_with_deepl (Except.ok s) = s) := by
  refine ⟨fun e dec => rfl, fun tok dec e hd => ?_, fun tok dec s hd => ?_,
    fun e => rfl, fun s => rfl⟩
  · unfold translate_tokenized_text
    rw [show (Except.ok tok).bind dec = dec tok from rfl, hd]
  · unfold translate_tokenized_text
    rw [show (Except.ok tok).bind dec = dec tok from rfl, hd]

/-- Claim C8 witness: a decode step that raises yields the sentinel. -/
theorem c8_translation_error_sentinel_witness :
    translate_tokenized_text (Except.ok [1]) (fun _ => Except.error "CUDA error")
      = TRANSLATION_ERROR :=
  c8_translation_error_sentinel.2.1 [1] (fun _ => Except.error "CUDA error")
    "CUDA error" rfl

/-- Claim C9 counterexample: with `h = [(0,1,"hello")]` and a fresh buffer,
`insert(h,0); flush(); insert(h,0); flush()` commits nothing on the first
flush and commits "hello" on the second flush - the opposite of the claim
that commits appear only on the first flush and the second returns `[]`. -/
theorem c9_counterexample :
    (HBState.init.insert [⟨0, 1, "hello"⟩] 0).flush.1 = [] ∧
    ((HBState.init.insert [⟨0, 1, "hello"⟩] 0).flush.2.insert
        [⟨0, 1, "hello"⟩] 0).flush.1 ≠ [] := by
  exact ⟨by decide, by decide⟩

/-- Claim C9 (amended): starting from the empty buffer, feeding the same
hypothesis `h` by `insert(h,0); flush()` three times yields commits only on
the second flush: the first flush returns `[]`, the second returns the
shifted-and-filtered hypothesis, and the third returns `[]`. -/
theorem c9_amended_same_hypothesis_twice (h : List TW) :
    (HBState.init.insert h 0).flush.1 = [] ∧
    ((HBState.init.insert h 0).flush.2.insert h 0).flush.1
      = insertShiftFilter HBState.init h 0 ∧
    (((HBState.init.insert h 0).flush.2.insert h 0).flush.2.insert h 0).flush.1
      = [] := by
  have h1 : HBState.init.insert h 0
      = { HBState.init with new := insertShiftFilter HBState.init h 0 } :=
    insert_commited_nil _ _ _ rfl
  have hf1 : (HBState.init.insert h 0).flush
      = (([] : List TW),
        { commited := [], buffer := insertShiftFilter HBState.init h 0,
          new := [], lct := 0, lcw := none }) := by
    rw [h1]
    simp [HBState.flush, flushLoop_nil_right, HBState.init]
  have hlct : ((HBState.init.insert h 0).flush.2).lct = HBState.init.lct := by
    rw [hf1]
    rfl
  have h2 : (HBState.init.insert h 0).flush.2.insert h 0
      = { (HBState.init.insert h 0).flush.2 with
          new := insertShiftFilter HBState.init h 0 } := by
    rw [insert_commited_nil _ _ _ (by rw [hf1]),
      insertShiftFilter_lct_congr _ HBState.init h 0 hlct]
  have hf2 : ((HBState.init.insert h 0).flush.2.insert h 0).flush.1
      = insertShiftFilter HBState.init h 0 := by
    rw [h2, hf1]
    simp [HBState.flush, flushLoop_self]
  refine ⟨by rw [hf1], hf2, ?_⟩
  have hbuf : (((HBState.init.insert h 0).flush.2.insert h 0).flush.2).buffer
      = [] := by
    rw [h2, hf1]
    simp [HBState.flush, flushLoop_self]
  exact flush_commit_of_buffer_nil _ (by rw [insert_buffer]; exact hbuf)

/-- Claim C2 counterexample: with committed texts ending "a","a" and
incoming texts "a","a","b" (first start within 1 s of the last committed
time), the largest matching n-gram is n = 2 - the whole candidate range -
yet `insert` drops only one word: the loop breaks at the first (smallest)
matching `n`, not the largest. -/
theorem c2_counterexample :
    c2newL = c2hyp ∧
    min (min c2st.commited.length c2newL.length) 5 = 2 ∧
    ngramEq c2st.commited c2newL 2 = true ∧
    (c2st.insert c2hyp 0).new = [⟨5/2, 3, "a"⟩, ⟨3, 7/2, "b"⟩] ∧
    (c2st.insert c2hyp 0).new ≠ c2newL.drop 2 := by
  refine ⟨by decide, by decide, by decide, by decide, by decide⟩

/-- Claim C2 (amended): under the activation conditions of the n-gram
removal (`committed` non-empty, filtered `incoming` non-empty, first start
within 1 s of the last committed time), the SMALLEST n in
1..min(|committed|, |incoming|, 5) whose space-joined last-n committed
texts equal the space-joined first-n incoming texts is chosen and exactly
that many words are dropped from the front of `incoming`; if no n matches,
`incoming` is unchanged. -/
theorem c2_amended_smallest_ngram (st : HBState) (h : List TW) (o : ℚ)
    (newL : List TW)
    (hnl : insertShiftFilter st h o = newL)
    (hc : st.commited ≠ [])
    (hne : newL ≠ [])
    (hnear : ∀ w, newL.head? = some w → |w.a - st.lct| < 1) :
    (∀ n, 1 ≤ n → n ≤ min (min st.commited.length newL.length) 5 →
        ngramEq st.commited newL n = true →
        (∀ k, 1 ≤ k → k < n → ngramEq st.commited newL k = false) →
        (st.insert h o).new = newL.drop n) ∧
    ((∀ k, 1 ≤ k → k ≤ min (min st.commited.length newL.length) 5 →
        ngramEq st.commited newL k = false) →
      (st.insert h o).new = newL) := by
  obtain ⟨w, ws, rfl⟩ : ∃ w ws, newL = w :: ws := by
    cases newL with
    | nil => exact absurd rfl hne
    | cons w ws => exact ⟨w, ws, rfl⟩
  have hins : (st.insert h o).new = ngramDrop st.commited (w :: ws) :=
    insert_ngram_cond st h o w ws hnl hc (hnear w rfl)
  constructor
  · intro n h1 h5 hp hmin
    rw [hins]
    unfold ngramDrop
    rw [find?_range'_some (fun i => ngramEq st.commited (w :: ws) i) 1
      (min (min st.commited.length (w :: ws).length) 5) n h1 (by omega) hp
      (fun k hk1 hk2 => hmin k hk1 hk2)]
  · intro hall
    rw [hins]
    unfold ngramDrop
    rw [find?_range'_none (fun i => ngramEq st.commited (w :: ws) i) 1
      (min (min st.commited.length (w :: ws).length) 5)
      (fun k hk1 hk2 => hall k hk1 (by omega))]

/-- Claim C2 witness: on the `c2st`/`c2hyp` input the smallest matching n
is 1, and exactly one word is dropped from the front of `incoming`. -/
theorem c2_amended_smallest_ngram_witness :
    (c2st.insert c2hyp 0).new = c2newL.drop 1 :=
  (c2_amended_smallest_ngram c2st c2hyp 0 c2newL rfl (by decide) (by decide)
    (fun w hw => by
      have hh : c2newL.head? = some (⟨39/20, 5/2, "a"⟩ : TW) := by decide
      rw [hh] at hw
      rw [(Option.some.inj hw).symm]
      decide)).1 1 (by decide) (by decide) (by decide)
    (fun k hk1 hk2 => by omega)

/-- Claim C3: with buffer trimming mode `segment`, once the audio buffer
reaches `buffer_trimming_sec` the processor runs `chunk_completed_segment`
on `commited_not_final`; with at most one word it returns `[]` and leaves
the state unchanged; below the threshold nothing happens; and on the
concrete scenario (12-second buffer, threshold 10,
words a,b,c,d ending at 1,2,10,10.5) it commits a,b,c and chunks at 10. -/
theorem c3_segment_mode_trim :
    (∀ (st : ProcState) (words : List TW), words.length ≤ 1 →
      chunk_completed_segment st words = ([], st)) ∧
    (∀ st : ProcState, ¬ ((st.audioLen : ℚ) / (SAMPLING_RATE : ℚ) < st.trimSec) →
      get_completed_words_segment st = chunk_completed_segment st st.cnf) ∧
    (∀ st : ProcState, (st.audioLen : ℚ) / (SAMPLING_RATE : ℚ) < st.trimSec →
      get_completed_words_segment st = ([], st)) ∧
    get_completed_words_segment c3st
      = ([⟨0, 1, "a"⟩, ⟨1, 2, "b"⟩, ⟨19/2, 10, "c"⟩],
        { c3st with
          bufferTimeOffset := 10
          audioLen := 2 * 16000
          cnf := [⟨10, 21/2, "d"⟩]
          finalT := [⟨0, 1, "a"⟩, ⟨1, 2, "b"⟩, ⟨19/2, 10, "c"⟩] }) := by
  refine ⟨fun st words hw => ?_, fun st hge => ?_, fun st hlt => ?_, by decide⟩
  · simp [chunk_completed_segment, hw]
  · simp [get_completed_words_segment, hge]
  · simp [get_completed_words_segment, hlt]

/-- Claim C3 witness: the boundary case and the gating discharged on
concrete states. -/
theorem c3_segment_mode_trim_witness :
    chunk_completed_segment c3stSmall [⟨0, 1, "a"⟩] = ([], c3stSmall) ∧
    get_completed_words_segment c3st = chunk_completed_segment c3st c3st.cnf ∧
    get_completed_words_segment c3stSmall = ([], c3stSmall) :=
  ⟨c3_segment_mode_trim.1 c3stSmall [⟨0, 1, "a"⟩] (by decide),
    c3_segment_mode_trim.2.1 c3st (by decide),
    c3_segment_mode_trim.2.2.1 c3stSmall (by decide)⟩

/-- Claim C4 counterexample: inserting the hypothesis
`[(0,5,"x"), (1,2,"y")]` twice (with a flush after each insert) commits
both words, and the committed `end_s` sequence `[5, 2]` is decreasing. -/
theorem c4_counterexample :
    ¬ List.Chain' (fun x y : ℚ => x ≤ y)
      (((runOps HBState.init
        [HBOp.ins [⟨0, 5, "x"⟩, ⟨1, 2, "y"⟩] 0, HBOp.fl,
          HBOp.ins [⟨0, 5, "x"⟩, ⟨1, 2, "y"⟩] 0, HBOp.fl]).2).map
        (fun w => w.b)) := by
  intro hch
  rw [show (((runOps HBState.init
        [HBOp.ins [⟨0, 5, "x"⟩, ⟨1, 2, "y"⟩] 0, HBOp.fl,
          HBOp.ins [⟨0, 5, "x"⟩, ⟨1, 2, "y"⟩] 0, HBOp.fl]).2).map
        (fun w => w.b)) = [(5 : ℚ), 2] from by decide] at hch
  obtain ⟨h52, -⟩ := List.chain'_cons.1 hch
  norm_num at h52

/-- Claim C4 (amended): for every sequence of insert/flush operations whose
inserted hypotheses are chronologically ordered (each word has
`start_s ≤ end_s` and ends no later than the next word starts), the
sequence of `end_s` values across all words ever returned by `flush` is
non-decreasing up to a 0.1-second tolerance: each value exceeds its
predecessor minus 0.1. -/
theorem c4_amended_commit_ends_chain (ops : List HBOp)
    (hops : ∀ op ∈ ops, OpChron op) :
    List.Chain' (fun x y : ℚ => x - 1/10 < y)
      (((runOps HBState.init ops).2).map (fun w => w.b)) := by
  have hInit : HBInv HBState.init [] := by
    refine ⟨?_, ?_, ?_, ?_⟩
    · intro w hw
      cases hw
    · exact List.Pairwise.nil
    · exact List.chain'_nil
    · intro x hx
      cases hx
  simpa using runOps_chain ops HBState.init [] hInit hops

/-- Claim C4 witness: the LocalAgreement scenario operations are
chronological and their committed ends chain with the 0.1 slack. -/
theorem c4_amended_commit_ends_chain_witness :
    List.Chain' (fun x y : ℚ => x - 1/10 < y)
      (((runOps HBState.init
        [HBOp.ins exHyp1 0, HBOp.fl, HBOp.ins exHyp2 0, HBOp.fl]).2).map
        (fun w => w.b)) :=
  c4_amended_commit_ends_chain
    [HBOp.ins exHyp1 0, HBOp.fl, HBOp.ins exHyp2 0, HBOp.fl] (by decide)

/-- Claim C6: every prompt reachable by `init` (which sets the empty
prompt) and any sequence of `process_iter` steps (each of which either
leaves the prompt unchanged or replaces it by the last 200 characters of
`prompt + completed_text`) has length at most 200. -/
theorem c6_prompt_cap (p : String) (hp : PromptReachable p) : p.length ≤ 200 := by
  induction hp with
  | init => decide
  | step hp c ih => exact pyLast_length 200 _

/-- Claim C6 witness: one step with a 300-character completed text. -/
theorem c6_prompt_cap_witness : (promtStep "" c6long).length ≤ 200 :=
  c6_prompt_cap _ (PromptReachable.step PromptReachable.init c6long)

end RatCompute

end WhisperStreamingSpec
